import Mathlib

/-!
Verification development for a Russian word-frequency pipeline
(`aelita_rdd.py`): text cleaning, wordcount, top-K / bottom-K ranking,
suffix stemming, and the driver's error guards.

Strings are modelled by Lean `String`; Python `len` on a `str` counts code
points, which is `(·.data.length)` here.  Python's `str.lower` is modelled
for ASCII and the Cyrillic block actually relevant to the program (`А`-`Я`
and `Ё`); every other character is left unchanged, which coincides with the
source's behaviour on all characters whose lowercase form could survive the
Cyrillic-only filter.  Python's whitespace class is modelled by its ASCII
part; the cleaning filter makes the final output independent of the exact
whitespace set.
-/

/-- ASCII part of Python's whitespace class (`str.split`, `strip`, `\s`). -/
def isPySpace (c : Char) : Bool :=
  c = ' ' || c = '\t' || c = '\n' || c = '\r' || c = '\x0b' || c = '\x0c'

/-- The character class `[а-яё]` of the cleaning regexes: lowercase Cyrillic
letters U+0430..U+044F together with `ё` (U+0451). -/
def isCyr (c : Char) : Bool := ('а' ≤ c && c ≤ 'я') || c = 'ё'

/-- Python `str.lower`, restricted to ASCII letters and the Cyrillic
uppercase letters `А`-`Я` (U+0410..U+042F, lowered by adding 0x20) and `Ё`
(U+0401 → U+0451); all other characters are fixed. -/
def pyLower (c : Char) : Char :=
  if 'A' ≤ c && c ≤ 'Z' then Char.ofNat (c.toNat + 32)
  else if 'А' ≤ c && c ≤ 'Я' then Char.ofNat (c.toNat + 32)
  else if c = 'Ё' then 'ё'
  else c

/-- Python `str.strip()`: drop leading and trailing whitespace. -/
def pyStrip (cs : List Char) : List Char :=
  ((cs.dropWhile isPySpace).reverse.dropWhile isPySpace).reverse

/-- Python `re.sub(r'\s+', ' ', line)`: each maximal run of whitespace
becomes a single space. -/
def collapseSpaces : List Char → List Char
  | [] => []
  | c :: rest =>
    match rest with
    | [] => [if isPySpace c then ' ' else c]
    | d :: _ =>
      if isPySpace c && isPySpace d then collapseSpaces rest
      else (if isPySpace c then ' ' else c) :: collapseSpaces rest

/-- Python `str.split()` with no argument: split on whitespace runs,
producing no empty tokens. -/
def pySplit (cs : List Char) : List (List Char) :=
  (cs.splitOnP isPySpace).filter (fun t => t ≠ [])

/-- The stop-word set of `load_russian_stopwords`, transcribed in source
order.  The Python source is a set literal (a few entries are repeated in
the source text); a list models it up to membership, which is all the
program uses. -/
def stop_words : List String :=
  ["и", "в", "во", "не", "что", "он", "на", "я", "с", "со", "как", "а",
   "то", "все", "она", "так", "его", "но", "да", "ты", "к", "у", "же",
   "вы", "за", "бы", "по", "только", "ее", "мне", "было", "вот", "от",
   "меня", "еще", "нет", "о", "из", "ему", "теперь", "когда", "даже",
   "ну", "вдруг", "ли", "если", "уже", "или", "ни", "быть", "был", "него",
   "до", "вас", "нибудь", "опять", "уж", "вам", "ведь", "там", "потом",
   "себя", "ничего", "ей", "может", "они", "тут", "где", "есть", "надо",
   "ней", "для", "мы", "тебя", "их", "чем", "была", "сам", "чтоб", "без",
   "будто", "чего", "раз", "тоже", "себе", "под", "будет", "ж", "тогда",
   "кто", "этот", "того", "потому", "этого", "какой", "совсем", "ним",
   "здесь", "этом", "один", "почти", "мой", "тем", "чтобы", "нее", "сейчас",
   "были", "куда", "зачем", "всех", "никогда", "можно", "при", "наконец",
   "два", "об", "другой", "хоть", "после", "над", "больше", "тот", "через",
   "эти", "нас", "про", "всего", "них", "какая", "много", "разве", "три",
   "эту", "моя", "впрочем", "хорошо", "свою", "этой", "перед", "иногда",
   "лучше", "чуть", "том", "нельзя", "такой", "им", "более", "всегда",
   "конечно", "всю", "между", "это", "вот", "вдруг", "как", "под", "над",
   "при", "после", "перед", "через", "из", "от", "до", "для", "за", "к", "у"]

/-- `clean_text(line, stop_words)`: return `[]` on a whitespace-only line;
otherwise lowercase and strip the line, replace every character outside
`[а-яё\s]` by a space, collapse whitespace runs, split on whitespace, and
keep a token when its length exceeds 2, it is not a stop word, and it
matches `^[а-яё]+$`. -/
def clean_text (line : String) (stop : List String) : List String :=
  if pyStrip line.data = [] then []
  else
    let lowered := pyStrip (line.data.map pyLower)
    let subbed := lowered.map (fun c => if isCyr c || isPySpace c then c else ' ')
    let toks := pySplit (collapseSpaces subbed)
    toks.filterMap (fun t =>
      let w := pyStrip t
      if 2 < w.length && decide (String.mk w ∉ stop) && w.all isCyr
      then some (String.mk w) else none)

/-- The suffix table of `simple_russian_stemmer`, in source order (including
the duplicated entries of the Python list). -/
def endings : List String :=
  ["ость", "ать", "ять", "ить", "еть", "уть", "ють", "ат", "ят", "ит",
   "ет", "ут", "ют", "ый", "ий", "ая", "яя", "ое", "ее", "ые", "ие",
   "ов", "ев", "ам", "ям", "ами", "ями", "ах", "ях", "ом", "ем", "у",
   "ю", "ем", "им", "шь", "ть", "ти", "л", "ла", "ло", "ли", "н", "на",
   "но", "ны", "ть", "ся", "ей", "ой"]

/-- Non-increasing length: the order of `sorted(endings, key=len, reverse=True)`. -/
def lenDescOrder (a b : String) : Prop := b.data.length ≤ a.data.length

instance : DecidableRel lenDescOrder := fun a b => Nat.decLe b.data.length a.data.length

instance : IsTotal String lenDescOrder := ⟨fun a b => Nat.le_total b.data.length a.data.length⟩

instance : IsTrans String lenDescOrder := ⟨fun _ _ _ h h2 => Nat.le_trans h2 h⟩

/-- `sorted(endings, key=len, reverse=True)`: Python's sort is stable, and
so is `List.insertionSort`, so sorting by non-increasing length here yields
exactly the iteration order of the Python loop. -/
def sortedEndings : List String :=
  List.insertionSort lenDescOrder endings

/-- The match test of the stemmer loop:
`word.endswith(ending) and len(word) > len(ending) + 2`. -/
def RuleMatches (w e : String) : Prop :=
  e.data <:+ w.data ∧ e.data.length + 2 < w.data.length

instance (w e : String) : Decidable (RuleMatches w e) :=
  inferInstanceAs (Decidable (_ ∧ _))

/-- Python `word[:-n]` for `0 < n ≤ len(word)`: keep the first
`len(word) - n` characters. -/
def pyDropRight (w : String) (n : Nat) : String :=
  String.mk (w.data.take (w.data.length - n))

/-- The `for ending in sorted(...)` loop body: return the truncated word at
the first matching rule, or the word unchanged when no rule matches. -/
def stemLoop (w : String) : List String → String
  | [] => w
  | e :: rest =>
    if RuleMatches w e then pyDropRight w e.data.length else stemLoop w rest

/-- `simple_russian_stemmer(word)`. -/
def simple_russian_stemmer (w : String) : String :=
  stemLoop w sortedEndings

/-- Lexicographic comparison of character lists by code point, as Python
compares strings (a proper prefix is smaller). -/
def charListLe : List Char → List Char → Bool
  | [], _ => true
  | _ :: _, [] => false
  | a :: as, b :: bs =>
    if a < b then true else if b < a then false else charListLe as bs

/-- Ordering used by `takeOrdered(50, key=lambda x: -x[1])`: ascending in
the negated count, i.e. count non-increasing. -/
def countDescOrder (a b : String × Nat) : Prop := b.2 ≤ a.2

instance : DecidableRel countDescOrder := fun a b => Nat.decLe b.2 a.2

instance : IsTotal (String × Nat) countDescOrder :=
  ⟨fun a b => Nat.le_total b.2 a.2⟩

instance : IsTrans (String × Nat) countDescOrder :=
  ⟨fun _ _ _ h h2 => Nat.le_trans h2 h⟩

/-- Ordering used by `takeOrdered(50, key=lambda x: x[0])`: word ascending. -/
def wordAscOrder (a b : String × Nat) : Prop :=
  charListLe a.1.data b.1.data = true

instance : DecidableRel wordAscOrder :=
  fun a b => instDecidableEqBool (charListLe a.1.data b.1.data) true

/-- Ordering used by `takeOrdered(50, key=lambda x: (x[1], x[0]))`: count
ascending, then word ascending, as Python orders pairs. -/
def countWordOrder (a b : String × Nat) : Prop :=
  a.2 < b.2 ∨ (a.2 = b.2 ∧ charListLe a.1.data b.1.data = true)

instance : DecidableRel countWordOrder :=
  fun _ _ => inferInstanceAs (Decidable (_ ∨ _))

/-- One `reduceByKey` merge step: combine `v` into the entry of key `k`, or
append a fresh entry when `k` is absent. -/
def insertWith (f : Nat → Nat → Nat) (k : String) (v : Nat) :
    List (String × Nat) → List (String × Nat)
  | [] => [(k, v)]
  | p :: rest =>
    if p.1 = k then (p.1, f p.2 v) :: rest else p :: insertWith f k v rest

/-- `reduceByKey(f)` over a list of key-value pairs: fold every pair into an
accumulating association list.  Spark produces one pair per distinct key
with the values combined by `f`; this sequential fold realizes that
contract. -/
def reduceByKey (f : Nat → Nat → Nat) (ps : List (String × Nat)) :
    List (String × Nat) :=
  ps.foldl (fun acc p => insertWith f p.1 p.2 acc) []

/-- The wordcount stage: `map(lambda word: (word, 1)).reduceByKey(lambda a, b: a + b)`. -/
def wordcount (ws : List String) : List (String × Nat) :=
  reduceByKey (fun a b => a + b) (ws.map (fun w => (w, 1)))

/-- The keys of a frequency table. -/
def keys (t : List (String × Nat)) : List String := t.map Prod.fst

/-- The total of all counts of a frequency table. -/
def sumCounts (t : List (String × Nat)) : Nat := (t.map Prod.snd).sum

/-- The count a frequency table assigns to `w` (0 when `w` is absent). -/
def lookupCount (w : String) : List (String × Nat) → Nat
  | [] => 0
  | p :: rest => if p.1 = w then p.2 else lookupCount w rest

/-- Spark's `takeOrdered(k, key)`: the `k` smallest entries of the dataset
in the order `r` induced by the key.  Modelled as a stable sort followed by
`take`; ties between equal keys are unspecified in Spark, and no claim here
depends on the tie order. -/
def takeOrdered (k : Nat) (r : String × Nat → String × Nat → Prop)
    [DecidableRel r] (t : List (String × Nat)) : List (String × Nat) :=
  (List.insertionSort r t).take k

/-- `wordcount_rdd.takeOrdered(k, key=lambda x: -x[1])`: the top-`k` entries
by count. -/
def top_k (k : Nat) (t : List (String × Nat)) : List (String × Nat) :=
  takeOrdered k countDescOrder t

/-- The bottom-`k` (rarity) selection of the driver: filter the entries of
count 1; when any exist, `takeOrdered(k, key=lambda x: x[0])` over them,
otherwise `takeOrdered(k, key=lambda x: (x[1], x[0]))` over the whole
table. -/
def bottom_k (k : Nat) (t : List (String × Nat)) : List (String × Nat) :=
  if 0 < (t.filter (fun x => x.2 == 1)).length
  then takeOrdered k wordAscOrder (t.filter (fun x => x.2 == 1))
  else takeOrdered k countWordOrder t

/-- `((unique_words - stemmed_unique_words) / unique_words) * 100`, with
Python's float division modelled exactly over `ℚ`. -/
def vocabularyReduction (uo us : Nat) : ℚ :=
  ((uo : ℚ) - (us : ℚ)) / (uo : ℚ) * 100

/-- The analysis values `analyze_text` computes after all guards pass. -/
structure Report where
  totalWords : Nat
  uniqueWords : Nat
  top50 : List (String × Nat)
  bottom50 : List (String × Nat)
  stemmedUniqueWords : Nat
  reduction : ℚ
  top50Stemmed : List (String × Nat)
  bottom50Stemmed : List (String × Nat)
deriving DecidableEq

/-- Outcome of one `analyze_text` run: the two guard exits or a full
report. -/
inductive AnalyzeResult where
  | fileNotFound : AnalyzeResult
  | noWords : AnalyzeResult
  | success : Report → AnalyzeResult
deriving DecidableEq

/-- `text_rdd.flatMap(lambda line: clean_text(line, stop_words))`: the
cleaned word sequence of the whole file. -/
def cleanedWords (lines : List String) : List String :=
  lines.flatMap (fun line => clean_text line stop_words)

/-- The analysis computed once both guards pass: wordcount, top/bottom 50,
stemmed wordcount, stemmed top/bottom 50, and the vocabulary reduction. -/
def buildReport (lines : List String) : Report :=
  { totalWords := (cleanedWords lines).length
    uniqueWords := (wordcount (cleanedWords lines)).length
    top50 := top_k 50 (wordcount (cleanedWords lines))
    bottom50 := bottom_k 50 (wordcount (cleanedWords lines))
    stemmedUniqueWords :=
      (wordcount ((cleanedWords lines).map simple_russian_stemmer)).length
    reduction := vocabularyReduction (wordcount (cleanedWords lines)).length
      (wordcount ((cleanedWords lines).map simple_russian_stemmer)).length
    top50Stemmed := top_k 50 (wordcount ((cleanedWords lines).map simple_russian_stemmer))
    bottom50Stemmed :=
      bottom_k 50 (wordcount ((cleanedWords lines).map simple_russian_stemmer)) }

/-- `RussianTextAnalyzer.analyze_text`: the input file is `none` when
`os.path.exists` fails, otherwise its list of lines.  The driver returns
after reporting an error when the file is missing, returns after reporting
"no words" when nothing survives cleaning, and otherwise computes counts,
rankings, stemmed counts and the vocabulary reduction. -/
def analyze_text (file : Option (List String)) : AnalyzeResult :=
  match file with
  | none => AnalyzeResult.fileNotFound
  | some lines =>
    if (cleanedWords lines).length = 0 then AnalyzeResult.noWords
    else AnalyzeResult.success (buildReport lines)

/-- A word on which no rule fires is returned unchanged by the loop. -/
theorem stemLoop_no_match (w : String) :
    ∀ l : List String, (∀ e ∈ l, ¬ RuleMatches w e) → stemLoop w l = w := by
  intro l
  induction l with
  | nil => intro _; rfl
  | cons e t ih =>
    intro hnone
    rw [stemLoop, if_neg (hnone e (List.mem_cons_self e t))]
    exact ih fun e2 he2 => hnone e2 (List.mem_cons_of_mem e he2)

/-- On a list sorted by non-increasing length, the loop truncates by a
matching rule of maximal length. -/
theorem stemLoop_longest (w e : String) :
    ∀ l : List String, List.Sorted lenDescOrder l → e ∈ l → RuleMatches w e →
      (∀ e2 ∈ l, RuleMatches w e2 → e2.data.length ≤ e.data.length) →
      stemLoop w l = pyDropRight w e.data.length := by
  intro l
  induction l with
  | nil => intro _ hmem; exact absurd hmem (List.not_mem_nil e)
  | cons a t ih =>
    intro hsort hmem hm hmax
    by_cases ha : RuleMatches w a
    · rw [stemLoop, if_pos ha]
      have h1 : a.data.length ≤ e.data.length := hmax a (List.mem_cons_self a t) ha
      have h2 : e.data.length ≤ a.data.length := by
        rcases List.mem_cons.mp hmem with rfl | hmem2
        · exact le_refl _
        · exact List.rel_of_sorted_cons hsort e hmem2
      rw [Nat.le_antisymm h1 h2]
    · rw [stemLoop, if_neg ha]
      have hmem2 : e ∈ t := by
        rcases List.mem_cons.mp hmem with rfl | h2
        · exact absurd hm ha
        · exact h2
      exact ih hsort.of_cons hmem2 hm fun e2 he2 => hmax e2 (List.mem_cons_of_mem a he2)

/-- C1: the stemmer strips exactly one suffix — the longest table suffix the
word ends with whose removal leaves more than 2 characters; with no such
suffix the word is unchanged; and `simple_russian_stemmer "работать" = "работ"`. -/
theorem stemmer_strips_longest_matching_suffix :
    (∀ w e, e ∈ endings → RuleMatches w e →
        (∀ e2 ∈ endings, RuleMatches w e2 → e2.data.length ≤ e.data.length) →
        simple_russian_stemmer w = pyDropRight w e.data.length)
    ∧ (∀ w, (∀ e ∈ endings, ¬ RuleMatches w e) → simple_russian_stemmer w = w)
    ∧ simple_russian_stemmer "работать" = "работ" := by
  refine ⟨?_, ?_, by decide⟩
  · intro w e he hm hmax
    exact stemLoop_longest w e sortedEndings (List.sorted_insertionSort lenDescOrder endings)
      ((List.mem_insertionSort lenDescOrder).mpr he) hm
      fun e2 he2 => hmax e2 ((List.mem_insertionSort lenDescOrder).mp he2)
  · intro w hnone
    exact stemLoop_no_match w sortedEndings
      fun e he => hnone e ((List.mem_insertionSort lenDescOrder).mp he)

/-- Witness for C1 at the spec's example word. -/
theorem stemmer_strips_longest_matching_suffix_witness :
    ("ать" ∈ endings ∧ RuleMatches "работать" "ать"
      ∧ (∀ e2 ∈ endings, RuleMatches "работать" e2 → e2.data.length ≤ "ать".data.length))
    ∧ simple_russian_stemmer "работать" = pyDropRight "работать" "ать".data.length :=
  ⟨by decide, stemmer_strips_longest_matching_suffix.1 "работать" "ать"
    (by decide) (by decide) (by decide)⟩

/-- The loop never lengthens a word. -/
theorem stemLoop_length_le (w : String) :
    ∀ l : List String, (stemLoop w l).data.length ≤ w.data.length := by
  intro l
  induction l with
  | nil => exact le_refl _
  | cons e t ih =>
    rw [stemLoop]
    by_cases he : RuleMatches w e
    · rw [if_pos he]
      simp [pyDropRight]
    · rw [if_neg he]; exact ih

/-- The loop returns the word itself or a strictly shorter string. -/
theorem stemLoop_eq_or_lt (w : String) :
    ∀ l : List String, stemLoop w l = w ∨ (stemLoop w l).data.length < w.data.length := by
  intro l
  induction l with
  | nil => exact Or.inl rfl
  | cons e t ih =>
    rw [stemLoop]
    by_cases he : RuleMatches w e
    · rw [if_pos he]
      rcases Nat.eq_zero_or_pos e.data.length with h0 | hpos
      · left
        rw [pyDropRight, h0, Nat.sub_zero, List.take_length]
      · right
        have hlt := he.2
        simp only [pyDropRight]
        rw [List.length_take]
        omega
    · rw [if_neg he]; exact ih

/-- C7: re-applying the stemmer returns the same string or a strictly
shorter one, so the second application never lengthens the first's output. -/
theorem stemmer_second_application_shrinks (w : String) :
    (simple_russian_stemmer (simple_russian_stemmer w) = simple_russian_stemmer w ∨
      (simple_russian_stemmer (simple_russian_stemmer w)).data.length <
        (simple_russian_stemmer w).data.length)
    ∧ (simple_russian_stemmer (simple_russian_stemmer w)).data.length ≤
        (simple_russian_stemmer w).data.length :=
  ⟨stemLoop_eq_or_lt (simple_russian_stemmer w) sortedEndings,
   stemLoop_length_le (simple_russian_stemmer w) sortedEndings⟩

/-- The loop returns the word or a strict prefix of at least 3 characters. -/
theorem stemLoop_prefix_cases (w : String) :
    ∀ l : List String, stemLoop w l = w ∨
      ((stemLoop w l).data <+: w.data ∧ (stemLoop w l).data.length < w.data.length ∧
        3 ≤ (stemLoop w l).data.length) := by
  intro l
  induction l with
  | nil => exact Or.inl rfl
  | cons e t ih =>
    rw [stemLoop]
    by_cases he : RuleMatches w e
    · rw [if_pos he]
      rcases Nat.eq_zero_or_pos e.data.length with h0 | hpos
      · left
        rw [pyDropRight, h0, Nat.sub_zero, List.take_length]
      · right
        have hlt := he.2
        refine ⟨List.take_prefix _ _, ?_, ?_⟩ <;>
          · simp only [pyDropRight]
            rw [List.length_take]
            omega
    · rw [if_neg he]; exact ih

/-- C10: the stemmer returns its input unchanged or a strict prefix of
length at least 3; in particular words of at most 3 characters are fixed. -/
theorem stemmer_output_never_shorter_than_three (w : String) :
    (simple_russian_stemmer w = w ∨
      ((simple_russian_stemmer w).data <+: w.data ∧
        (simple_russian_stemmer w).data.length < w.data.length ∧
        3 ≤ (simple_russian_stemmer w).data.length))
    ∧ (w.data.length ≤ 3 → simple_russian_stemmer w = w) := by
  refine ⟨stemLoop_prefix_cases w sortedEndings, fun hle => ?_⟩
  rcases stemLoop_prefix_cases w sortedEndings with h | ⟨_, hlt, hge⟩
  · exact h
  · omega

/-- Witness for C10 at a 3-character word. -/
theorem stemmer_output_never_shorter_than_three_witness :
    "мир".data.length ≤ 3 ∧ simple_russian_stemmer "мир" = "мир" :=
  ⟨by decide, (stemmer_output_never_shorter_than_three "мир").2 (by decide)⟩

/-- C2: every word `clean_text` emits has more than 2 characters, consists
solely of lowercase Cyrillic letters (including `ё`), and is not a stop
word. -/
theorem clean_text_output_words (line w : String)
    (h : w ∈ clean_text line stop_words) :
    2 < w.data.length ∧ (∀ c ∈ w.data, isCyr c = true) ∧ w ∉ stop_words := by
  unfold clean_text at h
  by_cases hempty : pyStrip line.data = []
  · rw [if_pos hempty] at h
    exact absurd h (List.not_mem_nil w)
  · rw [if_neg hempty] at h
    obtain ⟨t, _, hf⟩ := List.mem_filterMap.mp h
    dsimp only at hf
    split at hf
    next hcond =>
      obtain rfl : String.mk (pyStrip t) = w := Option.some.inj hf
      simp only [Bool.and_eq_true, decide_eq_true_eq, List.all_eq_true] at hcond
      exact ⟨hcond.1.1, hcond.2, hcond.1.2⟩
    next => exact absurd hf (Option.noConfusion)

/-- Witness for C2 on the spec's example line at the word "мир". -/
theorem clean_text_output_words_witness :
    ("мир" ∈ clean_text "Привет, мир! 123 Hello" stop_words)
    ∧ 2 < "мир".data.length ∧ (∀ c ∈ "мир".data, isCyr c = true)
    ∧ "мир" ∉ stop_words :=
  ⟨by decide, clean_text_output_words "Привет, мир! 123 Hello" "мир" (by decide)⟩

/-- C3: `clean_text` on "Привет, мир! 123 Hello" with the default stop words
keeps exactly "привет" and "мир" in that order. -/
theorem clean_text_example_line :
    clean_text "Привет, мир! 123 Hello" stop_words = ["привет", "мир"] := by
  decide

/-- One wordcount fold step: merge one word with count 1 into the table. -/
def countStep (acc : List (String × Nat)) (w : String) : List (String × Nat) :=
  insertWith (fun a b => a + b) w 1 acc

/-- The wordcount stage is the fold of `countStep` over the word sequence. -/
theorem wordcount_eq_foldl (ws : List String) :
    wordcount ws = ws.foldl countStep [] := by
  rw [wordcount, reduceByKey, List.foldl_map]
  rfl

/-- Merging `(k, v)` adds `v` to the count of `k` and changes no other
count. -/
theorem lookupCount_insertWith (k w : String) (v : Nat) :
    ∀ t, lookupCount w (insertWith (fun a b => a + b) k v t) =
      lookupCount w t + if k = w then v else 0 := by
  intro t
  induction t with
  | nil =>
    by_cases hkw : k = w <;> simp [insertWith, lookupCount, hkw]
  | cons p rest ih =>
    rw [insertWith]
    by_cases hpk : p.1 = k
    · subst hpk
      rw [if_pos rfl]
      by_cases hpw : p.1 = w <;> simp [lookupCount, hpw]
    · rw [if_neg hpk, lookupCount, lookupCount]
      by_cases hpw : p.1 = w
      · have hkw : k ≠ w := fun h => hpk (hpw.trans h.symm)
        simp [hpw, hkw]
      · rw [if_neg hpw, if_neg hpw, ih]

/-- Merging `(k, v)` updates the key list only by appending `k` when it is
new. -/
theorem keys_insertWith (f : Nat → Nat → Nat) (k : String) (v : Nat) :
    ∀ t, keys (insertWith f k v t) =
      if k ∈ keys t then keys t else keys t ++ [k] := by
  intro t
  induction t with
  | nil => simp [insertWith, keys]
  | cons p rest ih =>
    rw [insertWith]
    by_cases hpk : p.1 = k
    · subst hpk
      simp [keys]
    · rw [if_neg hpk]
      have hne : k ≠ p.1 := fun h => hpk h.symm
      simp only [keys, List.map_cons] at ih ⊢
      rw [ih]
      by_cases hmem : k ∈ List.map Prod.fst rest <;> simp [hmem, hne]

/-- Membership in the keys after a merge. -/
theorem mem_keys_insertWith (f : Nat → Nat → Nat) (k : String) (v : Nat)
    (w : String) (t : List (String × Nat)) :
    w ∈ keys (insertWith f k v t) ↔ w ∈ keys t ∨ w = k := by
  rw [keys_insertWith]
  split
  next hmem =>
    constructor
    · exact Or.inl
    · rintro (h | rfl)
      · exact h
      · exact hmem
  next => simp

/-- A merge preserves distinctness of keys. -/
theorem keys_nodup_insertWith (f : Nat → Nat → Nat) (k : String) (v : Nat)
    (t : List (String × Nat)) (h : (keys t).Nodup) :
    (keys (insertWith f k v t)).Nodup := by
  rw [keys_insertWith]
  split
  next => exact h
  next hmem => simp [List.nodup_append, h, hmem]

/-- Merging `(k, v)` adds `v` to the total count. -/
theorem sumCounts_insertWith (k : String) (v : Nat) :
    ∀ t, sumCounts (insertWith (fun a b => a + b) k v t) = sumCounts t + v := by
  intro t
  induction t with
  | nil => simp [insertWith, sumCounts]
  | cons p rest ih =>
    rw [insertWith]
    by_cases hpk : p.1 = k
    · subst hpk
      simp [sumCounts]
      omega
    · rw [if_neg hpk]
      simp only [sumCounts, List.map_cons, List.sum_cons] at ih ⊢
      omega

/-- The count the fold assigns to `w`: its previous count plus its number of
occurrences in the remaining words. -/
theorem foldl_lookupCount (w : String) :
    ∀ (ws : List String) (acc : List (String × Nat)),
      lookupCount w (ws.foldl countStep acc) =
        lookupCount w acc + ws.count w := by
  intro ws
  induction ws with
  | nil => intro acc; simp
  | cons x ws ih =>
    intro acc
    rw [List.foldl_cons]
    show lookupCount w (ws.foldl countStep (countStep acc x)) = _
    rw [ih, countStep, lookupCount_insertWith, List.count_cons]
    by_cases hxw : x = w
    · subst hxw
      simp
      omega
    · have hwx : ¬ (w == x) = true := by simpa using fun h => hxw h.symm
      simp [hxw, hwx]

/-- Membership in the fold's keys: an old key or one of the folded words. -/
theorem foldl_mem_keys (w : String) :
    ∀ (ws : List String) (acc : List (String × Nat)),
      w ∈ keys (ws.foldl countStep acc) ↔ w ∈ keys acc ∨ w ∈ ws := by
  intro ws
  induction ws with
  | nil => intro acc; simp
  | cons x ws ih =>
    intro acc
    rw [List.foldl_cons]
    show w ∈ keys (ws.foldl countStep (countStep acc x)) ↔ _
    rw [ih, countStep, mem_keys_insertWith]
    simp [List.mem_cons]
    tauto

/-- The fold keeps the key list distinct. -/
theorem foldl_keys_nodup :
    ∀ (ws : List String) (acc : List (String × Nat)),
      (keys acc).Nodup → (keys (ws.foldl countStep acc)).Nodup := by
  intro ws
  induction ws with
  | nil => intro acc h; exact h
  | cons x ws ih =>
    intro acc h
    rw [List.foldl_cons]
    exact ih _ (keys_nodup_insertWith _ _ _ _ h)

/-- The fold adds one to the total count per folded word. -/
theorem foldl_sumCounts :
    ∀ (ws : List String) (acc : List (String × Nat)),
      sumCounts (ws.foldl countStep acc) = sumCounts acc + ws.length := by
  intro ws
  induction ws with
  | nil => intro acc; simp
  | cons x ws ih =>
    intro acc
    rw [List.foldl_cons]
    show sumCounts (ws.foldl countStep (countStep acc x)) = _
    rw [ih, countStep, sumCounts_insertWith]
    simp
    omega

/-- C4: the wordcount table lists every distinct input word exactly once,
its counts total the input length, and the table (as a word → count map) is
invariant under permutation of the input. -/
theorem wordcount_table_properties (ws : List String) :
    (keys (wordcount ws)).Nodup
    ∧ (∀ w, w ∈ keys (wordcount ws) ↔ w ∈ ws)
    ∧ sumCounts (wordcount ws) = ws.length
    ∧ ∀ ws2, ws.Perm ws2 →
        ∀ w, lookupCount w (wordcount ws) = lookupCount w (wordcount ws2) := by
  refine ⟨?_, ?_, ?_, ?_⟩
  · rw [wordcount_eq_foldl]
    exact foldl_keys_nodup ws [] (by simp [keys])
  · intro w
    rw [wordcount_eq_foldl, foldl_mem_keys]
    simp [keys]
  · rw [wordcount_eq_foldl, foldl_sumCounts]
    simp [sumCounts]
  · intro ws2 hperm w
    rw [wordcount_eq_foldl, wordcount_eq_foldl, foldl_lookupCount, foldl_lookupCount]
    simp only [lookupCount, Nat.zero_add]
    exact hperm.count_eq w

/-- Witness for C4 on a permuted three-word sequence. -/
theorem wordcount_table_properties_witness :
    (["а", "б", "а"] : List String).Perm ["б", "а", "а"]
    ∧ lookupCount "а" (wordcount ["а", "б", "а"]) =
        lookupCount "а" (wordcount ["б", "а", "а"]) :=
  ⟨by decide,
   (wordcount_table_properties ["а", "б", "а"]).2.2.2 ["б", "а", "а"] (by decide) "а"⟩

/-- C5: top-K returns `min K (table size)` entries with counts
non-increasing; when K is at least the table size every entry is returned,
and the empty table yields the empty list. -/
theorem top_k_spec (k : Nat) (t : List (String × Nat)) :
    (top_k k t).length = min k t.length
    ∧ List.Sorted countDescOrder (top_k k t)
    ∧ (t.length ≤ k → (top_k k t).Perm t)
    ∧ top_k k [] = [] := by
  refine ⟨?_, ?_, ?_, by simp [top_k, takeOrdered]⟩
  · simp [top_k, takeOrdered]
  · exact List.Pairwise.sublist (List.take_sublist k _)
      (List.sorted_insertionSort countDescOrder t)
  · intro hlen
    have : (List.insertionSort countDescOrder t).length ≤ k := by
      rwa [List.length_insertionSort]
    rw [top_k, takeOrdered, List.take_of_length_le this]
    exact List.perm_insertionSort countDescOrder t

/-- Witness for C5 with K larger than the table. -/
theorem top_k_spec_witness :
    ([("а", 1), ("б", 2)] : List (String × Nat)).length ≤ 5
    ∧ (top_k 5 [("а", 1), ("б", 2)]).Perm [("а", 1), ("б", 2)] :=
  ⟨by decide, (top_k_spec 5 [("а", 1), ("б", 2)]).2.2.1 (by decide)⟩

/-- The lexicographic comparison is total. -/
theorem charListLe_total :
    ∀ as bs : List Char, charListLe as bs = true ∨ charListLe bs as = true := by
  intro as
  induction as with
  | nil => intro bs; exact Or.inl rfl
  | cons a as ih =>
    intro bs
    cases bs with
    | nil => exact Or.inr rfl
    | cons b bs =>
      rw [charListLe, charListLe]
      by_cases hab : a < b
      · left; rw [if_pos hab]
      · by_cases hba : b < a
        · right; rw [if_pos hba]
        · rw [if_neg hab, if_neg hba, if_neg hba, if_neg hab]
          exact ih bs

/-- The lexicographic comparison is transitive. -/
theorem charListLe_trans :
    ∀ as bs cs : List Char, charListLe as bs = true → charListLe bs cs = true →
      charListLe as cs = true := by
  intro as
  induction as with
  | nil => intro bs cs _ _; rfl
  | cons a as ih =>
    intro bs cs h1 h2
    cases bs with
    | nil => rw [charListLe] at h1; exact absurd h1 Bool.false_ne_true
    | cons b bs =>
      cases cs with
      | nil => rw [charListLe] at h2; exact absurd h2 Bool.false_ne_true
      | cons c cs =>
        rw [charListLe] at h1 h2 ⊢
        rcases lt_trichotomy a b with hab | rfl | hba
        · rcases lt_trichotomy b c with hbc | rfl | hcb
          · rw [if_pos (lt_trans hab hbc)]
          · rw [if_pos hab]
          · rw [if_neg (lt_asymm hcb), if_pos hcb] at h2
            exact absurd h2 Bool.false_ne_true
        · rw [if_neg (lt_irrefl a), if_neg (lt_irrefl a)] at h1
          rcases lt_trichotomy a c with hac | rfl | hca
          · rw [if_pos hac]
          · rw [if_neg (lt_irrefl a), if_neg (lt_irrefl a)] at h2 ⊢
            exact ih bs cs h1 h2
          · rw [if_neg (lt_asymm hca), if_pos hca] at h2
            exact absurd h2 Bool.false_ne_true
        · rw [if_neg (lt_asymm hba), if_pos hba] at h1
          exact absurd h1 Bool.false_ne_true

instance : IsTotal (String × Nat) wordAscOrder :=
  ⟨fun a b => charListLe_total a.1.data b.1.data⟩

instance : IsTrans (String × Nat) wordAscOrder :=
  ⟨fun a b c => charListLe_trans a.1.data b.1.data c.1.data⟩

instance : IsTotal (String × Nat) countWordOrder := by
  refine ⟨fun a b => ?_⟩
  rcases lt_trichotomy a.2 b.2 with h | h | h
  · exact Or.inl (Or.inl h)
  · rcases charListLe_total a.1.data b.1.data with hle | hle
    · exact Or.inl (Or.inr ⟨h, hle⟩)
    · exact Or.inr (Or.inr ⟨h.symm, hle⟩)
  · exact Or.inr (Or.inl h)

instance : IsTrans (String × Nat) countWordOrder := by
  refine ⟨fun a b c hab hbc => ?_⟩
  rcases hab with h1 | ⟨h1, h1w⟩
  · rcases hbc with h2 | ⟨h2, _⟩
    · exact Or.inl (lt_trans h1 h2)
    · exact Or.inl (by omega)
  · rcases hbc with h2 | ⟨h2, h2w⟩
    · exact Or.inl (by omega)
    · exact Or.inr ⟨h1.trans h2, charListLe_trans _ _ _ h1w h2w⟩

/-- `takeOrdered` returns the `k` lowest entries of the dataset: there is a
split of the dataset (up to permutation) into the returned entries and the
rest, with every returned entry ordered at or below every remaining one. -/
theorem takeOrdered_lowest (k : Nat) (r : String × Nat → String × Nat → Prop)
    [DecidableRel r] [IsTotal (String × Nat) r] [IsTrans (String × Nat) r]
    (t : List (String × Nat)) :
    ∃ rest, ((takeOrdered k r t) ++ rest).Perm t
      ∧ ∀ a ∈ takeOrdered k r t, ∀ b ∈ rest, r a b := by
  refine ⟨(List.insertionSort r t).drop k, ?_, ?_⟩
  · rw [takeOrdered, List.take_append_drop]
    exact List.perm_insertionSort r t
  · have hs : List.Sorted r (List.insertionSort r t) :=
      List.sorted_insertionSort r t
    rw [← List.take_append_drop k (List.insertionSort r t)] at hs
    exact (List.pairwise_append.mp hs).2.2

/-- C6: when the table has count-1 entries, bottom-K consists of count-1
entries only, word-ascending, all of them when K suffices and the
word-ascending-lowest K of them otherwise; with no count-1 entry it is the
K entries of the table lowest in (count ascending, word ascending), in that
order; on `{a:1, b:1, c:2}` with K = 50 it returns `[a, b]` without `c`. -/
theorem bottom_k_spec (k : Nat) (t : List (String × Nat)) :
    ((∃ e ∈ t, e.2 = 1) →
      (∀ e2 ∈ bottom_k k t, e2.2 = 1 ∧ e2 ∈ t)
      ∧ List.Sorted wordAscOrder (bottom_k k t)
      ∧ (bottom_k k t).length = min k (t.filter (fun x => x.2 == 1)).length
      ∧ ((t.filter (fun x => x.2 == 1)).length ≤ k →
          (bottom_k k t).Perm (t.filter (fun x => x.2 == 1)))
      ∧ (∃ rest, ((bottom_k k t) ++ rest).Perm (t.filter (fun x => x.2 == 1))
          ∧ ∀ a ∈ bottom_k k t, ∀ b ∈ rest, wordAscOrder a b))
    ∧ ((∀ e ∈ t, e.2 ≠ 1) →
      (∀ e2 ∈ bottom_k k t, e2 ∈ t)
      ∧ List.Sorted countWordOrder (bottom_k k t)
      ∧ (bottom_k k t).length = min k t.length
      ∧ (t.length ≤ k → (bottom_k k t).Perm t)
      ∧ (∃ rest, ((bottom_k k t) ++ rest).Perm t
          ∧ ∀ a ∈ bottom_k k t, ∀ b ∈ rest, countWordOrder a b))
    ∧ bottom_k 50 [("a", 1), ("b", 1), ("c", 2)] = [("a", 1), ("b", 1)] := by
  refine ⟨?_, ?_, by decide⟩
  · rintro ⟨e, he, he1⟩
    have hmem : e ∈ t.filter (fun x => x.2 == 1) :=
      List.mem_filter.mpr ⟨he, by simp [he1]⟩
    have hpos : 0 < (t.filter (fun x => x.2 == 1)).length :=
      List.length_pos.mpr (List.ne_nil_of_mem hmem)
    rw [bottom_k, if_pos hpos]
    refine ⟨?_, ?_, ?_, ?_, ?_⟩
    · intro e2 he2
      have hin : e2 ∈ t.filter (fun x => x.2 == 1) :=
        (List.mem_insertionSort wordAscOrder).mp
          ((List.take_sublist k _).subset he2)
      have := List.mem_filter.mp hin
      refine ⟨by simpa using this.2, this.1⟩
    · exact List.Pairwise.sublist (List.take_sublist k _)
        (List.sorted_insertionSort wordAscOrder _)
    · simp [takeOrdered]
    · intro hlen
      have hle : (List.insertionSort wordAscOrder
          (t.filter (fun x => x.2 == 1))).length ≤ k := by
        rwa [List.length_insertionSort]
      rw [takeOrdered, List.take_of_length_le hle]
      exact List.perm_insertionSort wordAscOrder _
    · exact takeOrdered_lowest k wordAscOrder (t.filter (fun x => x.2 == 1))
  · intro hnone
    have hnil : t.filter (fun x => x.2 == 1) = [] := by
      rw [List.filter_eq_nil_iff]
      intro a ha
      simpa using hnone a ha
    rw [bottom_k, hnil]
    have h0 : ¬ 0 < ([] : List (String × Nat)).length := by simp
    rw [if_neg h0]
    refine ⟨?_, ?_, ?_, ?_, ?_⟩
    · intro e2 he2
      exact (List.mem_insertionSort countWordOrder).mp
        ((List.take_sublist k _).subset he2)
    · exact List.Pairwise.sublist (List.take_sublist k _)
        (List.sorted_insertionSort countWordOrder t)
    · simp [takeOrdered]
    · intro hlen
      have : (List.insertionSort countWordOrder t).length ≤ k := by
        rwa [List.length_insertionSort]
      rw [takeOrdered, List.take_of_length_le this]
      exact List.perm_insertionSort countWordOrder t
    · exact takeOrdered_lowest k countWordOrder t

/-- Witness for C6 at the spec's example table. -/
theorem bottom_k_spec_witness :
    (∃ e ∈ ([("a", 1), ("b", 1), ("c", 2)] : List (String × Nat)), e.2 = 1)
    ∧ List.Sorted wordAscOrder (bottom_k 50 [("a", 1), ("b", 1), ("c", 2)]) :=
  ⟨by decide, ((bottom_k_spec 50 [("a", 1), ("b", 1), ("c", 2)]).1 (by decide)).2.1⟩

/-- A non-empty word sequence yields a non-empty wordcount table. -/
theorem wordcount_ne_nil (ws : List String) (h : ws ≠ []) : wordcount ws ≠ [] := by
  cases ws with
  | nil => exact absurd rfl h
  | cons x ws2 =>
    intro hw
    have hmem : x ∈ keys (wordcount (x :: ws2)) := by
      rw [wordcount_eq_foldl, foldl_mem_keys]
      exact Or.inr (List.mem_cons_self x ws2)
    rw [hw] at hmem
    simp [keys] at hmem

/-- C8: a missing file aborts the run with an error and no analysis; an
input with no surviving words aborts before counting; and any successful
report has a positive unique-word count, so the vocabulary-reduction
division never divides by zero. -/
theorem analyze_text_guards :
    analyze_text none = AnalyzeResult.fileNotFound
    ∧ (∀ lines : List String, cleanedWords lines = [] →
        analyze_text (some lines) = AnalyzeResult.noWords)
    ∧ (∀ file r, analyze_text file = AnalyzeResult.success r → 0 < r.uniqueWords) := by
  refine ⟨rfl, ?_, ?_⟩
  · intro lines hnil
    rw [analyze_text, if_pos (by rw [hnil]; rfl)]
  · intro file r hsucc
    cases file with
    | none => exact absurd hsucc (by simp [analyze_text])
    | some lines =>
      rw [analyze_text] at hsucc
      split at hsucc
      next => exact absurd hsucc (by simp)
      next hlen =>
        injection hsucc with hr
        subst hr
        have hne : cleanedWords lines ≠ [] := by
          intro h0
          exact hlen (by rw [h0]; rfl)
        have := wordcount_ne_nil (cleanedWords lines) hne
        show 0 < (wordcount (cleanedWords lines)).length
        exact List.length_pos.mpr this

/-- Witness for C8 on a file whose only line cleans to nothing. -/
theorem analyze_text_guards_witness :
    cleanedWords [""] = [] ∧ analyze_text (some [""]) = AnalyzeResult.noWords :=
  ⟨by decide, analyze_text_guards.2.1 [""] (by decide)⟩

/-- C9: every successful report's vocabulary reduction is
`(unique_original - unique_stemmed) / unique_original * 100`, and the
formula yields 20 for 100 original and 80 stemmed unique words. -/
theorem vocabulary_reduction_formula :
    (∀ file r, analyze_text file = AnalyzeResult.success r →
      r.reduction = vocabularyReduction r.uniqueWords r.stemmedUniqueWords)
    ∧ vocabularyReduction 100 80 = 20 := by
  refine ⟨?_, by norm_num [vocabularyReduction]⟩
  intro file r hsucc
  cases file with
  | none => exact absurd hsucc (by simp [analyze_text])
  | some lines =>
    rw [analyze_text] at hsucc
    split at hsucc
    next => exact absurd hsucc (by simp)
    next =>
      injection hsucc with hr
      subst hr
      rfl

/-- Witness for C9 on a one-word file. -/
theorem vocabulary_reduction_formula_witness :
    analyze_text (some ["абв"]) = AnalyzeResult.success (buildReport ["абв"])
    ∧ (buildReport ["абв"]).reduction =
        vocabularyReduction (buildReport ["абв"]).uniqueWords
          (buildReport ["абв"]).stemmedUniqueWords :=
  ⟨by rfl, vocabulary_reduction_formula.1 (some ["абв"]) (buildReport ["абв"]) (by rfl)⟩
